import Mathlib

/-!
Shallow embedding of the segment-editing and pagination engine of the
court-record-transcriber repository (src/src/app/recording/[id]/page.tsx).

Text is modelled as `List Char` (JS strings are sequences of code units;
all operations used by the engine -- `substring`, `split(' ')`, `join(' ')`,
`length`, concatenation -- translate to `List.take`/`List.drop`/
`List.splitOn`/`++`/`List.length`).  Speaker ids stay `String` since the
engine only compares them for equality.  JS `number` offsets are `Nat`:
every call site derives offsets from `indexOf`/`length`, which are
non-negative, and the clamping of `substring` matches `take`/`drop` clamping.
-/

namespace CRT

/-- Constant `CHARS_PER_LINE = 65` from the source. -/
def CHARS_PER_LINE : Nat := 65

/-- Constant `LINES_PER_PAGE = 25` from the source. -/
def LINES_PER_PAGE : Nat := 25

/-- The `Utterance` rows consumed by the page (fields used by the editing
engine; `speakerLabel` is `string | null` in the source). -/
structure Utterance where
  id : String
  speaker : String
  speakerLabel : Option (List Char)
  text : List Char
  startMs : Nat
  endMs : Nat
deriving DecidableEq, Repr

/-- Source interface `TextSegment`. -/
structure TextSegment where
  text : List Char
  speaker : String
  speakerLabel : Option (List Char)
  startCharIndex : Nat
  endCharIndex : Nat
deriving DecidableEq, Repr

/-- Source interface `UtteranceEdit` (the optional `deletedSegmentIndices`
field is never read by the engine and is omitted). -/
structure UtteranceEdit where
  utteranceId : String
  segments : List TextSegment
deriving DecidableEq, Repr

/-- The trivial single-segment state of an utterance, as constructed at
page.tsx:1604-1610 and page.tsx:1739-1745 (`getUtteranceSegments`). -/
def defaultSegment (u : Utterance) : TextSegment :=
  { text := u.text, speaker := u.speaker, speakerLabel := u.speakerLabel,
    startCharIndex := 0, endCharIndex := u.text.length }

/-- Concatenation of the `.text` fields of a segment list, in order. -/
def concatTexts (segs : List TextSegment) : List Char :=
  (segs.map (·.text)).flatten

/-- The adjacent-same-speaker merge loop (page.tsx:1672-1685 and
page.tsx:2107-2120): scan left to right, concatenating a segment into the
previously kept one when the speakers agree (keeping the `speaker`,
`speakerLabel` and `startCharIndex` of the first segment and extending
`endCharIndex`). -/
def mergeAdjacent : List TextSegment → List TextSegment
  | [] => []
  | [s] => [s]
  | s1 :: s2 :: rest =>
    if s1.speaker = s2.speaker then
      let s12 := { s1 with text := s1.text ++ s2.text, endCharIndex := s2.endCharIndex }
      mergeAdjacent (s12 :: rest)
    else
      s1 :: mergeAdjacent (s2 :: rest)
termination_by l => l.length

/-- The segment-splitting loop of `handlePartialSpeakerChange`
(page.tsx:1613-1670): walk the current segments tracking `charIndex`,
truncate each segment where it overlaps `[startOffset, endOffset)` and
insert the overlapped span with the new speaker.  JS `substring(a, b)`
is `(t.drop a).take (b - a)`. -/
def splitSegmentsAt (startOffset endOffset : Nat) (newSpeaker : String)
    (newLabel : Option (List Char)) :
    List TextSegment → Nat → List TextSegment
  | [], _ => []
  | segment :: rest, charIndex =>
    let segmentStart := charIndex
    let segmentEnd := charIndex + segment.text.length
    let overlapStart := max startOffset segmentStart
    let overlapEnd := min endOffset segmentEnd
    let pieces :=
      if overlapStart < overlapEnd then
        (if segmentStart < overlapStart then
          [{ text := segment.text.take (overlapStart - segmentStart),
             speaker := segment.speaker, speakerLabel := segment.speakerLabel,
             startCharIndex := segmentStart, endCharIndex := overlapStart }]
        else []) ++
        [{ text := (segment.text.drop (overlapStart - segmentStart)).take
                     (overlapEnd - overlapStart),
           speaker := newSpeaker, speakerLabel := newLabel,
           startCharIndex := overlapStart, endCharIndex := overlapEnd }] ++
        (if overlapEnd < segmentEnd then
          [{ text := segment.text.drop (overlapEnd - segmentStart),
             speaker := segment.speaker, speakerLabel := segment.speakerLabel,
             startCharIndex := overlapEnd, endCharIndex := segmentEnd }]
        else [])
      else
        [{ segment with startCharIndex := segmentStart,
                        endCharIndex := segmentEnd }]
    pieces ++ splitSegmentsAt startOffset endOffset newSpeaker newLabel rest segmentEnd

/-- `handlePartialSpeakerChange` (page.tsx:1590-1699).  The state updater:
find the utterance, resolve its current segments (the segments of an
existing edit -- JS `existingEdit?.segments || [...]` keeps an empty array --
else the trivial default), split, merge, and store the result only when
it deviates from the original single-speaker state
(`mergedSegments.length > 1 || mergedSegments[0]?.speaker !== utterance.speaker`;
on an empty merged list the JS optional access yields `undefined`, which
differs from any speaker string, hence `true`). -/
def handlePartialSpeakerChange (utts : List Utterance) (prev : List UtteranceEdit)
    (utteranceId : String) (startOffset endOffset : Nat)
    (newSpeaker : String) (newLabel : Option (List Char)) : List UtteranceEdit :=
  match utts.find? (fun u => u.id == utteranceId) with
  | none => prev
  | some utterance =>
    let currentSegments :=
      match prev.find? (fun e => e.utteranceId == utteranceId) with
      | some e => e.segments
      | none => [defaultSegment utterance]
    let mergedSegments := mergeAdjacent
      (splitSegmentsAt startOffset endOffset newSpeaker newLabel currentSegments 0)
    let filtered := prev.filter (fun e => e.utteranceId != utteranceId)
    let isModified := mergedSegments.length > 1 ||
      (match mergedSegments.head? with
       | some s => s.speaker != utterance.speaker
       | none => true)
    if isModified then
      filtered ++ [{ utteranceId := utteranceId, segments := mergedSegments }]
    else
      filtered

/-- `handleEntireSegmentSpeakerChange` (page.tsx:1702-1732): drop any edit
for the utterance; when the new speaker differs from the original one,
append a whole-text single-segment edit. -/
def handleEntireSegmentSpeakerChange (utts : List Utterance)
    (prev : List UtteranceEdit) (utteranceId : String)
    (newSpeaker : String) (newLabel : Option (List Char)) : List UtteranceEdit :=
  match utts.find? (fun u => u.id == utteranceId) with
  | none => prev
  | some utterance =>
    let filtered := prev.filter (fun e => e.utteranceId != utteranceId)
    if newSpeaker == utterance.speaker then
      filtered
    else
      filtered ++ [{ utteranceId := utteranceId,
                     segments := [{ text := utterance.text,
                                    speaker := newSpeaker,
                                    speakerLabel := newLabel,
                                    startCharIndex := 0,
                                    endCharIndex := utterance.text.length }] }]

/-- Speaker update of one segment, `newSegments[segIndex] = {...seg, speaker,
speakerLabel}` (page.tsx:2100-2105).  Out-of-range indices are left alone;
the only call site maps over the segment list, so indices are in range. -/
def setSegmentSpeaker (segs : List TextSegment) (segIndex : Nat)
    (newSpeaker : String) (newLabel : Option (List Char)) : List TextSegment :=
  match segs[segIndex]? with
  | some s => segs.set segIndex { s with speaker := newSpeaker, speakerLabel := newLabel }
  | none => segs

/-- `handleSegmentSpeakerChange` (page.tsx:2095-2134), a closure over the
rendered `utterance`: change the speaker of one segment, merge, drop the edit
when back to the original single-speaker state, else store the merged
segments. -/
def handleSegmentSpeakerChange (utterance : Utterance) (prev : List UtteranceEdit)
    (segIndex : Nat) (newSpeaker : String) (newLabel : Option (List Char)) :
    List UtteranceEdit :=
  match prev.find? (fun e => e.utteranceId == utterance.id) with
  | none => prev
  | some existingEdit =>
    let mergedSegments :=
      mergeAdjacent (setSegmentSpeaker existingEdit.segments segIndex newSpeaker newLabel)
    if mergedSegments.length == 1 &&
        (match mergedSegments.head? with
         | some s => s.speaker == utterance.speaker
         | none => false) then
      prev.filter (fun e => e.utteranceId != utterance.id)
    else
      prev.map (fun e =>
        if e.utteranceId == utterance.id then { e with segments := mergedSegments } else e)

/-- Offset recomputation after a deletion (page.tsx:2149-2159): reassign
`startCharIndex`/`endCharIndex` contiguously from the running `charIndex`. -/
def reindexSegments : List TextSegment → Nat → List TextSegment
  | [], _ => []
  | seg :: rest, charIndex =>
    { seg with startCharIndex := charIndex,
               endCharIndex := charIndex + seg.text.length } ::
      reindexSegments rest (charIndex + seg.text.length)

/-- `handleDeleteSegment` (page.tsx:2137-2168), a closure over `utterance`:
remove the segment at `segIndex` (`filter((_, i) => i !== segIndex)`,
i.e. `eraseIdx`); when no segments remain the edit is removed entirely,
otherwise the remaining segments are reindexed from 0. -/
def handleDeleteSegment (utterance : Utterance) (prev : List UtteranceEdit)
    (segIndex : Nat) : List UtteranceEdit :=
  match prev.find? (fun e => e.utteranceId == utterance.id) with
  | none => prev
  | some existingEdit =>
    let newSegments := existingEdit.segments.eraseIdx segIndex
    if newSegments.isEmpty then
      prev.filter (fun e => e.utteranceId != utterance.id)
    else
      prev.map (fun e =>
        if e.utteranceId == utterance.id then
          { e with segments := reindexSegments newSegments 0 }
        else e)

/-- `handleDeleteUtterance` (page.tsx:2326-2333): store an edit with empty
segments, the deleted-utterance sentinel. -/
def handleDeleteUtterance (utterance : Utterance) (prev : List UtteranceEdit) :
    List UtteranceEdit :=
  prev.filter (fun e => e.utteranceId != utterance.id) ++
    [{ utteranceId := utterance.id, segments := [] }]

/-- `handleRevertUtterance` (page.tsx:2171-2174 / 2336-2339): drop the edit. -/
def handleRevertUtterance (utterance : Utterance) (prev : List UtteranceEdit) :
    List UtteranceEdit :=
  prev.filter (fun e => e.utteranceId != utterance.id)

/-- The flattened per-segment record pushed by `processedSegments`
(page.tsx:1063-1069). -/
structure RenderedSegment where
  speaker : String
  speakerLabel : Option (List Char)
  text : List Char
  startMs : Nat
  endMs : Nat
deriving DecidableEq, Repr

/-- The adjacent-same-speaker merge of the flattening stage
(page.tsx:1097-1110): like `mergeAdjacent` but joining text with a single
space and extending `endMs`. -/
def mergeRendered : List RenderedSegment → List RenderedSegment
  | [] => []
  | [s] => [s]
  | s1 :: s2 :: rest =>
    if s1.speaker = s2.speaker then
      let s12 := { s1 with text := s1.text ++ ' ' :: s2.text, endMs := s2.endMs }
      mergeRendered (s12 :: rest)
    else
      s1 :: mergeRendered (s2 :: rest)
termination_by l => l.length

/-- Contribution of one utterance to `allSegments` (page.tsx:1071-1095):
`if (edit && edit.segments.length > 0)` emit the edited segments with the
time bounds of the utterance, else emit the original utterance. -/
def utteranceRendered (utteranceEdits : List UtteranceEdit) (utterance : Utterance) :
    List RenderedSegment :=
  match utteranceEdits.find? (fun e => e.utteranceId == utterance.id) with
  | some edit =>
    if edit.segments.length > 0 then
      edit.segments.map (fun s =>
        { speaker := s.speaker, speakerLabel := s.speakerLabel, text := s.text,
          startMs := utterance.startMs, endMs := utterance.endMs })
    else
      [{ speaker := utterance.speaker, speakerLabel := utterance.speakerLabel,
         text := utterance.text, startMs := utterance.startMs, endMs := utterance.endMs }]
  | none =>
    [{ speaker := utterance.speaker, speakerLabel := utterance.speakerLabel,
       text := utterance.text, startMs := utterance.startMs, endMs := utterance.endMs }]

/-- The flattening stage `processedSegments` (page.tsx:1062-1113). -/
def processedSegments (utterances : List Utterance)
    (utteranceEdits : List UtteranceEdit) : List RenderedSegment :=
  mergeRendered ((utterances.map (utteranceRendered utteranceEdits)).flatten)

/-- The two-digit zero padding, `padStart(2, '0')` (page.tsx:156-158). -/
def pad2 (n : Nat) : List Char :=
  if n < 10 then '0' :: (Nat.repr n).data else (Nat.repr n).data

/-- `formatTimestamp` (page.tsx:149-159): `H:MM:SS` when hours are positive,
else `M:SS`, from milliseconds (`Math.floor` is `Nat` division). -/
def formatTimestamp (ms : Nat) : List Char :=
  let totalSeconds := ms / 1000
  let hours := totalSeconds / 3600
  let minutes := totalSeconds % 3600 / 60
  let seconds := totalSeconds % 60
  if hours > 0 then
    (Nat.repr hours).data ++ ':' :: (pad2 minutes ++ ':' :: pad2 seconds)
  else
    (Nat.repr minutes).data ++ ':' :: pad2 seconds

/-- The word-wrap loop body of `splitTextIntoLines` (page.tsx:643-652) with
the `currentLine` accumulator made explicit.  JS string truthiness tests
(`if (testLine.length <= c)` / `if (currentLine)`) become emptiness tests. -/
def splitLoop (charsPerLine : Nat) : List (List Char) → List Char → List (List Char)
  | [], currentLine => if currentLine.isEmpty then [] else [currentLine]
  | word :: rest, currentLine =>
    let testLine := if currentLine.isEmpty then word else currentLine ++ ' ' :: word
    if testLine.length ≤ charsPerLine then
      splitLoop charsPerLine rest testLine
    else if currentLine.isEmpty then
      splitLoop charsPerLine rest word
    else
      currentLine :: splitLoop charsPerLine rest word

/-- `splitTextIntoLines` (page.tsx:638-655): split on single spaces and pack
words greedily into lines of at most `charsPerLine` characters, never
breaking a word. -/
def splitTextIntoLines (text : List Char) (charsPerLine : Nat) : List (List Char) :=
  splitLoop charsPerLine (text.splitOn ' ') []

/-- JS `Array.prototype.join(' ')`. -/
def joinWords : List (List Char) → List Char
  | [] => []
  | [w] => w
  | w :: ws => w ++ ' ' :: joinWords ws

/-- JS `String.prototype.toUpperCase` restricted to the ASCII case mapping. -/
def toUpperChars (s : List Char) : List Char := s.map Char.toUpper

/-- The first-line prefix `"[" + timestamp + "] " + speaker.toUpperCase() + ": "`
built at page.tsx:683. -/
def pfxChars (speakerDisplay : List Char) (startMs : Nat) : List Char :=
  '[' :: (formatTimestamp startMs ++ (']' :: ' ' :: (toUpperChars speakerDisplay ++ [':', ' '])))

/-- The greedy first-line packing loop of `processSegmentsIntoLines`
(page.tsx:695-710): take words while the running length (with one space
between words once the line is non-empty) stays within `limit`; return the
taken words and the remaining ones (`words.slice(wordIndex)`). -/
def takeFirstWords (limit : Nat) : List (List Char) → Nat →
    List (List Char) × List (List Char)
  | [], _ => ([], [])
  | word :: rest, firstLineLength =>
    let testLength := firstLineLength + (if firstLineLength > 0 then 1 else 0) + word.length
    if testLength ≤ limit then
      let fr := takeFirstWords limit rest testLength
      (word :: fr.1, fr.2)
    else
      ([], word :: rest)

/-- The union type of `DocumentLine.type` (page.tsx:660). -/
inductive LineType
  | header | metadata | content | lineSep | footer
deriving DecidableEq, Repr

/-- Source interface `DocumentLine` (page.tsx:658-666).  Optional fields are
`Option`s; `speakerLabel` is `string | null` when present, hence doubly
optional. -/
structure DocumentLine where
  lineNumber : Nat
  type : LineType
  speaker : Option String
  speakerLabel : Option (Option (List Char))
  timestamp : Option (List Char)
  text : List Char
  isContinuation : Bool
deriving DecidableEq, Repr

/-- Source interface `DocumentPage` (page.tsx:739-742). -/
structure DocumentPage where
  pageNumber : Nat
  lines : List DocumentLine
deriving DecidableEq, Repr

/-- The per-line record pushed at page.tsx:722-732: index 0 carries the
speaker fields and the timestamp, later indices are continuations. -/
def mkDocumentLine (segment : RenderedSegment) (ts : List Char) (lineNumber : Nat)
    (idx : Nat) (lineText : List Char) : DocumentLine :=
  { lineNumber := lineNumber + idx
    type := LineType.content
    speaker := if idx == 0 then some segment.speaker else none
    speakerLabel := if idx == 0 then some segment.speakerLabel else none
    timestamp := if idx == 0 then some ts else none
    text := lineText
    isContinuation := idx != 0 }

/-- The `allLines` texts of one segment (page.tsx:680-719): the first line
is packed against `Math.max(CHARS_PER_LINE - prefix.length, 30)`, the
remaining words are re-joined and wrapped at the full `CHARS_PER_LINE`
(the untouched `textLines` binding at page.tsx:688 is dead code and
omitted).  `remainingText` is only wrapped when non-empty (JS truthiness). -/
def segmentTextLines (getLabel : String → Option (List Char) → List Char)
    (segment : RenderedSegment) : List (List Char) :=
  let speaker := getLabel segment.speaker segment.speakerLabel
  let pfx := pfxChars speaker segment.startMs
  let firstLineChars := CHARS_PER_LINE - pfx.length
  let words := segment.text.splitOn ' '
  let fr := takeFirstWords (max firstLineChars 30) words 0
  let remainingText := joinWords fr.2
  joinWords fr.1 ::
    (if remainingText.isEmpty then [] else splitTextIntoLines remainingText CHARS_PER_LINE)

/-- The document lines of one segment, numbered from `lineNumber`
(page.tsx:680-732). -/
def docLinesOfSegment (getLabel : String → Option (List Char) → List Char)
    (segment : RenderedSegment) (lineNumber : Nat) : List DocumentLine :=
  (segmentTextLines getLabel segment).enum.map
    (fun p => mkDocumentLine segment (formatTimestamp segment.startMs) lineNumber p.1 p.2)

/-- The segment loop of `processSegmentsIntoLines` with the global
`lineNumber` counter made explicit (page.tsx:677-733). -/
def processSegmentsGo (getLabel : String → Option (List Char) → List Char) :
    List RenderedSegment → Nat → List DocumentLine
  | [], _ => []
  | segment :: rest, lineNumber =>
    let dl := docLinesOfSegment getLabel segment lineNumber
    dl ++ processSegmentsGo getLabel rest (lineNumber + dl.length)

/-- `processSegmentsIntoLines` (page.tsx:668-736): the counter starts at 1. -/
def processSegmentsIntoLines (segments : List RenderedSegment)
    (getLabel : String → Option (List Char) → List Char) : List DocumentLine :=
  processSegmentsGo getLabel segments 1

/-- The pagination loop of `paginateLines` with the `currentPage` and
`pageNumber` accumulators made explicit (page.tsx:749-759). -/
def paginateGo (linesPerPage : Nat) : List DocumentLine → List DocumentLine → Nat →
    List DocumentPage
  | [], currentPage, pageNumber =>
    if currentPage.isEmpty then [] else [{ pageNumber := pageNumber, lines := currentPage }]
  | l :: rest, currentPage, pageNumber =>
    let cp := currentPage ++ [l]
    if linesPerPage ≤ cp.length then
      { pageNumber := pageNumber, lines := cp } :: paginateGo linesPerPage rest [] (pageNumber + 1)
    else
      paginateGo linesPerPage rest cp pageNumber

/-- `paginateLines` (page.tsx:744-762). -/
def paginateLines (lines : List DocumentLine) (linesPerPage : Nat) : List DocumentPage :=
  paginateGo linesPerPage lines [] 1

/-! ### Properties of the adjacent-same-speaker merge -/

theorem concatTexts_cons (s : TextSegment) (l : List TextSegment) :
    concatTexts (s :: l) = s.text ++ concatTexts l := by
  simp [concatTexts]

/-- The merge never alters the concatenated wording. -/
theorem mergeAdjacent_concat (l : List TextSegment) :
    concatTexts (mergeAdjacent l) = concatTexts l := by
  induction l using mergeAdjacent.induct with
  | case1 => simp [mergeAdjacent]
  | case2 s => simp [mergeAdjacent]
  | case3 s1 s2 rest h s12 ih =>
    rw [mergeAdjacent, if_pos h, ih]
    simp [concatTexts_cons, s12, List.append_assoc]
  | case4 s1 s2 rest h ih =>
    rw [mergeAdjacent, if_neg h, concatTexts_cons, concatTexts_cons, ih, concatTexts_cons]

theorem mergeAdjacent_head_speaker_aux :
    ∀ (n : Nat) (rest : List TextSegment), rest.length ≤ n → ∀ s : TextSegment,
      ∃ t ts, mergeAdjacent (s :: rest) = t :: ts ∧ t.speaker = s.speaker := by
  intro n
  induction n with
  | zero =>
    intro rest h s
    cases rest with
    | nil => exact ⟨s, [], by rw [mergeAdjacent], rfl⟩
    | cons s2 r => simp at h
  | succ n ih =>
    intro rest h s
    cases rest with
    | nil => exact ⟨s, [], by rw [mergeAdjacent], rfl⟩
    | cons s2 r =>
      by_cases hsp : s.speaker = s2.speaker
      · rw [mergeAdjacent, if_pos hsp]
        obtain ⟨t, ts, heq, hspk⟩ := ih r (by simpa using h)
          { s with text := s.text ++ s2.text, endCharIndex := s2.endCharIndex }
        exact ⟨t, ts, heq, hspk⟩
      · rw [mergeAdjacent, if_neg hsp]
        exact ⟨s, mergeAdjacent (s2 :: r), rfl, rfl⟩

/-- A merged non-empty list keeps the speaker of its first segment in front. -/
theorem mergeAdjacent_head_speaker (s : TextSegment) (rest : List TextSegment) :
    ∃ t ts, mergeAdjacent (s :: rest) = t :: ts ∧ t.speaker = s.speaker :=
  mergeAdjacent_head_speaker_aux rest.length rest le_rfl s

/-- After the merge no two consecutive segments share a speaker. -/
theorem mergeAdjacent_chain (l : List TextSegment) :
    List.Chain' (fun a b => a.speaker ≠ b.speaker) (mergeAdjacent l) := by
  induction l using mergeAdjacent.induct with
  | case1 => simp [mergeAdjacent]
  | case2 s => simp [mergeAdjacent]
  | case3 s1 s2 rest h s12 ih =>
    rw [mergeAdjacent, if_pos h]
    exact ih
  | case4 s1 s2 rest h ih =>
    rw [mergeAdjacent, if_neg h]
    obtain ⟨t, ts, heq, hspk⟩ := mergeAdjacent_head_speaker s2 rest
    rw [heq] at ih ⊢
    exact List.Chain'.cons (by rw [hspk]; exact h) ih

theorem mergeRendered_head_speaker_aux :
    ∀ (n : Nat) (rest : List RenderedSegment), rest.length ≤ n → ∀ s : RenderedSegment,
      ∃ t ts, mergeRendered (s :: rest) = t :: ts ∧ t.speaker = s.speaker := by
  intro n
  induction n with
  | zero =>
    intro rest h s
    cases rest with
    | nil => exact ⟨s, [], by rw [mergeRendered], rfl⟩
    | cons s2 r => simp at h
  | succ n ih =>
    intro rest h s
    cases rest with
    | nil => exact ⟨s, [], by rw [mergeRendered], rfl⟩
    | cons s2 r =>
      by_cases hsp : s.speaker = s2.speaker
      · rw [mergeRendered, if_pos hsp]
        obtain ⟨t, ts, heq, hspk⟩ := ih r (by simpa using h)
          { s with text := s.text ++ ' ' :: s2.text, endMs := s2.endMs }
        exact ⟨t, ts, heq, hspk⟩
      · rw [mergeRendered, if_neg hsp]
        exact ⟨s, mergeRendered (s2 :: r), rfl, rfl⟩

theorem mergeRendered_head_speaker (s : RenderedSegment) (rest : List RenderedSegment) :
    ∃ t ts, mergeRendered (s :: rest) = t :: ts ∧ t.speaker = s.speaker :=
  mergeRendered_head_speaker_aux rest.length rest le_rfl s

/-- The flattening-stage merge also leaves no two consecutive rendered
segments with the same speaker. -/
theorem mergeRendered_chain (l : List RenderedSegment) :
    List.Chain' (fun a b => a.speaker ≠ b.speaker) (mergeRendered l) := by
  induction l using mergeRendered.induct with
  | case1 => simp [mergeRendered]
  | case2 s => simp [mergeRendered]
  | case3 s1 s2 rest h s12 ih =>
    rw [mergeRendered, if_pos h]
    exact ih
  | case4 s1 s2 rest h ih =>
    rw [mergeRendered, if_neg h]
    obtain ⟨t, ts, heq, hspk⟩ := mergeRendered_head_speaker s2 rest
    rw [heq] at ih ⊢
    exact List.Chain'.cons (by rw [hspk]; exact h) ih

/-! ### Coverage of the splitting and re-indexing operations -/

theorem concatTexts_nil : concatTexts [] = [] := rfl

theorem concatTexts_append (l1 l2 : List TextSegment) :
    concatTexts (l1 ++ l2) = concatTexts l1 ++ concatTexts l2 := by
  simp [concatTexts]

theorem take_mid_drop (t : List Char) (a b : Nat) (hab : a ≤ b) :
    t.take a ++ ((t.drop a).take (b - a) ++ t.drop b) = t := by
  have h1 : (t.drop a).drop (b - a) = t.drop b := by
    rw [List.drop_drop]
    congr 1
    omega
  rw [← h1, List.take_append_drop, List.take_append_drop]

/-- The splitting loop never alters the concatenated wording. -/
theorem splitSegmentsAt_concat (a b : Nat) (sp : String) (lb : Option (List Char)) :
    ∀ (segs : List TextSegment) (ci : Nat),
      concatTexts (splitSegmentsAt a b sp lb segs ci) = concatTexts segs := by
  intro segs
  induction segs with
  | nil => intro ci; rfl
  | cons segment rest ih =>
    intro ci
    rw [splitSegmentsAt]
    simp only [concatTexts_append, ih, concatTexts_cons]
    congr 1
    set t := segment.text with ht
    by_cases hov : max a ci < min b (ci + t.length)
    · rw [if_pos hov]
      have hmid : min b (ci + t.length) - max a ci =
          (min b (ci + t.length) - ci) - (max a ci - ci) := by omega
      have hab' : max a ci - ci ≤ min b (ci + t.length) - ci := by omega
      by_cases h1 : ci < max a ci
      · by_cases h2 : min b (ci + t.length) < ci + t.length
        · rw [if_pos h1, if_pos h2]
          simp only [concatTexts_append, concatTexts_cons, concatTexts_nil,
            List.append_nil, List.append_assoc]
          rw [hmid]
          exact take_mid_drop t _ _ hab'
        · rw [if_pos h1, if_neg h2]
          simp only [concatTexts_append, concatTexts_cons, concatTexts_nil,
            List.append_nil, List.append_assoc]
          have := take_mid_drop t (max a ci - ci) (min b (ci + t.length) - ci) hab'
          rw [show min b (ci + t.length) - ci = t.length by omega, List.drop_length,
            List.append_nil] at this
          rw [hmid, show min b (ci + t.length) - ci = t.length by omega]
          exact this
      · rw [if_neg h1]
        by_cases h2 : min b (ci + t.length) < ci + t.length
        · rw [if_pos h2]
          simp only [List.nil_append, concatTexts_append, concatTexts_cons, concatTexts_nil,
            List.append_nil, List.append_assoc]
          have := take_mid_drop t (max a ci - ci) (min b (ci + t.length) - ci) hab'
          rw [show max a ci - ci = 0 by omega, List.take_zero, List.drop_zero,
            List.nil_append, Nat.sub_zero] at this
          rw [hmid, show max a ci - ci = 0 by omega, List.drop_zero, Nat.sub_zero]
          exact this
        · rw [if_neg h2]
          simp only [List.nil_append, concatTexts_append, concatTexts_cons, concatTexts_nil,
            List.append_nil]
          rw [show max a ci - ci = 0 by omega, List.drop_zero,
            show min b (ci + t.length) - max a ci = t.length by omega, List.take_length]
    · rw [if_neg hov]
      simp [concatTexts_cons, concatTexts_nil]

/-! ### Coverage under the speaker-reattribution operations (claim C1) -/

theorem concatTexts_set_of_text_eq :
    ∀ (segs : List TextSegment) (i : Nat) (v : TextSegment),
      (∀ s, segs[i]? = some s → v.text = s.text) →
      concatTexts (segs.set i v) = concatTexts segs := by
  intro segs
  induction segs with
  | nil => intro i v _; rfl
  | cons s rest ih =>
    intro i v hv
    cases i with
    | zero =>
      rw [List.set_cons_zero, concatTexts_cons, concatTexts_cons, hv s (by simp)]
    | succ n =>
      rw [List.set_cons_succ, concatTexts_cons, concatTexts_cons,
        ih n v (fun s' hs' => hv s' (by simpa using hs'))]

/-- Changing the speaker of one segment never alters the concatenated wording. -/
theorem setSegmentSpeaker_concat (segs : List TextSegment) (i : Nat)
    (sp : String) (lb : Option (List Char)) :
    concatTexts (setSegmentSpeaker segs i sp lb) = concatTexts segs := by
  unfold setSegmentSpeaker
  cases hg : segs[i]? with
  | none => rfl
  | some s => exact concatTexts_set_of_text_eq segs i _ (fun s' hs' => by
      rw [hg] at hs'; cases hs'; rfl)

/-- Coverage: the segments of every stored edit concatenate back to the
original text of the owning utterance. -/
def Coverage (utts : List Utterance) (st : List UtteranceEdit) : Prop :=
  ∀ e ∈ st, ∀ u ∈ utts, e.utteranceId = u.id → concatTexts e.segments = u.text

/-- Edit-store states reachable from the baseline (no edits) through the
speaker-reattribution operations alone: split/reattribute a character range,
change the speaker of one segment, reassign a whole utterance, revert.  The
closure-based operations take the rendered utterance they were created for,
which always comes from the utterance list of the transcript. -/
inductive ReattributionReach (utts : List Utterance) : List UtteranceEdit → Prop
  | base : ReattributionReach utts []
  | splitStep (st : List UtteranceEdit) (uid : String) (a b : Nat) (sp : String)
      (lb : Option (List Char)) : ReattributionReach utts st →
      ReattributionReach utts (handlePartialSpeakerChange utts st uid a b sp lb)
  | segStep (st : List UtteranceEdit) (u : Utterance) (i : Nat) (sp : String)
      (lb : Option (List Char)) (hu : u ∈ utts) : ReattributionReach utts st →
      ReattributionReach utts (handleSegmentSpeakerChange u st i sp lb)
  | entireStep (st : List UtteranceEdit) (uid : String) (sp : String)
      (lb : Option (List Char)) : ReattributionReach utts st →
      ReattributionReach utts (handleEntireSegmentSpeakerChange utts st uid sp lb)
  | revertStep (st : List UtteranceEdit) (u : Utterance) (hu : u ∈ utts) :
      ReattributionReach utts st →
      ReattributionReach utts (handleRevertUtterance u st)

theorem coverage_handlePartialSpeakerChange (utts : List Utterance)
    (prev : List UtteranceEdit) (uid : String) (a b : Nat) (sp : String)
    (lb : Option (List Char)) (hids : (utts.map (·.id)).Nodup)
    (hc : Coverage utts prev) :
    Coverage utts (handlePartialSpeakerChange utts prev uid a b sp lb) := by
  cases hfind : utts.find? (fun x => x.id == uid) with
  | none => simp only [handlePartialSpeakerChange, hfind]; exact hc
  | some u0 =>
    have hu0 : u0 ∈ utts := List.mem_of_find?_eq_some hfind
    have hid0 : u0.id = uid := by simpa using List.find?_some hfind
    simp only [handlePartialSpeakerChange, hfind]
    have hcur : concatTexts
        (match prev.find? (fun e => e.utteranceId == uid) with
         | some e => e.segments
         | none => [defaultSegment u0]) = u0.text := by
      cases hedit : prev.find? (fun e => e.utteranceId == uid) with
      | none => simp [concatTexts_cons, concatTexts_nil, defaultSegment]
      | some e0 =>
        have hm : e0.utteranceId = uid := by simpa using List.find?_some hedit
        exact hc e0 (List.mem_of_find?_eq_some hedit) u0 hu0 (hm.trans hid0.symm)
    intro e he u hu hid
    split at he
    · rcases List.mem_append.mp he with hmem | hnew
      · exact hc e (List.mem_filter.mp hmem).1 u hu hid
      · have hee := List.mem_singleton.mp hnew
        subst hee
        simp only at hid
        have huu : u = u0 := List.inj_on_of_nodup_map hids hu hu0 (by rw [← hid, hid0])
        subst huu
        simpa only [mergeAdjacent_concat, splitSegmentsAt_concat] using hcur
    · exact hc e (List.mem_filter.mp he).1 u hu hid

theorem coverage_handleSegmentSpeakerChange (utts : List Utterance) (uu : Utterance)
    (prev : List UtteranceEdit) (i : Nat) (sp : String) (lb : Option (List Char))
    (hc : Coverage utts prev) :
    Coverage utts (handleSegmentSpeakerChange uu prev i sp lb) := by
  cases hfind : prev.find? (fun e => e.utteranceId == uu.id) with
  | none => simp only [handleSegmentSpeakerChange, hfind]; exact hc
  | some e0 =>
    have he0 : e0 ∈ prev := List.mem_of_find?_eq_some hfind
    have hm : e0.utteranceId = uu.id := by simpa using List.find?_some hfind
    simp only [handleSegmentSpeakerChange, hfind]
    split
    · intro e he u hu hid
      exact hc e (List.mem_filter.mp he).1 u hu hid
    · intro e he u hu hid
      rcases List.mem_map.mp he with ⟨e1, he1, rfl⟩
      by_cases hb : (e1.utteranceId == uu.id) = true
      · rw [if_pos hb] at hid ⊢
        simp only at hid ⊢
        rw [mergeAdjacent_concat, setSegmentSpeaker_concat]
        exact hc e0 he0 u hu (hm.trans ((eq_of_beq hb).symm.trans hid))
      · rw [if_neg hb] at hid ⊢
        exact hc e1 he1 u hu hid

theorem coverage_handleEntireSegmentSpeakerChange (utts : List Utterance)
    (prev : List UtteranceEdit) (uid : String) (sp : String) (lb : Option (List Char))
    (hids : (utts.map (·.id)).Nodup) (hc : Coverage utts prev) :
    Coverage utts (handleEntireSegmentSpeakerChange utts prev uid sp lb) := by
  cases hfind : utts.find? (fun x => x.id == uid) with
  | none => simp only [handleEntireSegmentSpeakerChange, hfind]; exact hc
  | some u0 =>
    have hu0 : u0 ∈ utts := List.mem_of_find?_eq_some hfind
    have hid0 : u0.id = uid := by simpa using List.find?_some hfind
    simp only [handleEntireSegmentSpeakerChange, hfind]
    split
    · intro e he u hu hid
      exact hc e (List.mem_filter.mp he).1 u hu hid
    · intro e he u hu hid
      rcases List.mem_append.mp he with hmem | hnew
      · exact hc e (List.mem_filter.mp hmem).1 u hu hid
      · have hee := List.mem_singleton.mp hnew
        subst hee
        simp only at hid
        have huu : u = u0 := List.inj_on_of_nodup_map hids hu hu0 (by rw [← hid, hid0])
        subst huu
        simp [concatTexts_cons, concatTexts_nil]

theorem coverage_handleRevertUtterance (utts : List Utterance) (uu : Utterance)
    (prev : List UtteranceEdit) (hc : Coverage utts prev) :
    Coverage utts (handleRevertUtterance uu prev) := by
  intro e he u hu hid
  exact hc e (List.mem_filter.mp he).1 u hu hid

/-- A sample two-character utterance used for concrete evaluations. -/
def uAB : Utterance :=
  { id := "u1", speaker := "A", speakerLabel := none, text := ['a', 'b'],
    startMs := 0, endMs := 1000 }

/-- A sample three-character utterance used for concrete evaluations. -/
def uABC : Utterance :=
  { id := "u1", speaker := "A", speakerLabel := none, text := ['a', 'b', 'c'],
    startMs := 0, endMs := 1000 }


theorem find?_filter_ne_none (l : List UtteranceEdit) (uid : String) :
    (l.filter (fun e => e.utteranceId != uid)).find? (fun e => e.utteranceId == uid) = none := by
  rw [List.find?_eq_none]
  intro a ha
  have h2 := (List.mem_filter.mp ha).2
  simp only [bne_iff_ne, ne_eq] at h2
  simpa using h2

/-- Contiguity of segment offsets starting at `n`. -/
def offsetsContiguous : List TextSegment → Nat → Prop
  | [], _ => True
  | s :: rest, n =>
    s.startCharIndex = n ∧ s.endCharIndex = n + s.text.length ∧
      offsetsContiguous rest (n + s.text.length)

theorem reindexSegments_contiguous :
    ∀ (segs : List TextSegment) (n : Nat), offsetsContiguous (reindexSegments segs n) n := by
  intro segs
  induction segs with
  | nil => intro n; trivial
  | cons s rest ih => intro n; exact ⟨rfl, rfl, ih (n + s.text.length)⟩

theorem reindexSegments_texts :
    ∀ (segs : List TextSegment) (n : Nat),
      (reindexSegments segs n).map (fun s => s.text) = segs.map (fun s => s.text) := by
  intro segs
  induction segs with
  | nil => intro n; rfl
  | cons s rest ih => intro n; simp [reindexSegments, ih]

theorem deleteMap_id (uid : String) (rs : List TextSegment) (x : UtteranceEdit) :
    ((if x.utteranceId == uid then { x with segments := rs } else x) : UtteranceEdit).utteranceId
      = x.utteranceId := by
  split <;> rfl

/-- A whole-utterance edit of `uAB` attributed to speaker B. -/
def editB_ab : UtteranceEdit :=
  { utteranceId := "u1",
    segments := [{ text := ['a', 'b'], speaker := "B", speakerLabel := none,
                   startCharIndex := 0, endCharIndex := 2 }] }

/-- The deleted-utterance sentinel for `uAB`. -/
def emptyEdit_u1 : UtteranceEdit := { utteranceId := "u1", segments := [] }

/-- C3 counterexample: deleting the only segment of an edit removes the edit
from the store; no empty segment list is persisted. -/
theorem c3_counterexample_empty_not_persisted :
    handleDeleteSegment uAB [editB_ab] 0 = [] ∧
    handleDeleteSegment uAB [editB_ab] 0 ≠ [emptyEdit_u1] := by
  constructor
  · decide
  · decide

/-- C3 (amended): `handleDeleteSegment` removes the segment at the index;
when no segments remain the whole edit is removed from the store (reverting
the utterance to its original attribution), otherwise the remaining
segments are re-indexed contiguously from 0 with their texts unchanged. -/
theorem c3_delete_segment_spec (u : Utterance) (prev : List UtteranceEdit)
    (i : Nat) (e0 : UtteranceEdit)
    (hfind : prev.find? (fun x => x.utteranceId == u.id) = some e0) :
    ((e0.segments.eraseIdx i).isEmpty = true →
      (handleDeleteSegment u prev i).find? (fun x => x.utteranceId == u.id) = none) ∧
    ((e0.segments.eraseIdx i).isEmpty = false →
      (handleDeleteSegment u prev i).find? (fun x => x.utteranceId == u.id) =
        some { e0 with segments := reindexSegments (e0.segments.eraseIdx i) 0 } ∧
      offsetsContiguous (reindexSegments (e0.segments.eraseIdx i) 0) 0 ∧
      (reindexSegments (e0.segments.eraseIdx i) 0).map (fun s => s.text) =
        (e0.segments.eraseIdx i).map (fun s => s.text)) := by
  constructor
  · intro hemp
    simp only [handleDeleteSegment, hfind]
    rw [if_pos hemp]
    exact find?_filter_ne_none prev u.id
  · intro hemp
    refine ⟨?_, reindexSegments_contiguous _ 0, reindexSegments_texts _ 0⟩
    simp only [handleDeleteSegment, hfind]
    rw [if_neg (by simp [hemp])]
    rw [List.find?_map]
    have hpf : ((fun x : UtteranceEdit => x.utteranceId == u.id) ∘
        (fun e => if e.utteranceId == u.id then
          { e with segments := reindexSegments (e0.segments.eraseIdx i) 0 } else e)) =
        (fun x : UtteranceEdit => x.utteranceId == u.id) := by
      funext x
      simp only [Function.comp]
      rw [deleteMap_id]
    rw [hpf, hfind]
    simp only [Option.map_some']
    congr 1
    rw [if_pos (by simpa using List.find?_some hfind)]



/-- C4 counterexample: reattribute the middle character of `"abc"` to B
(giving segments A,B,A), then delete the middle segment: the stored edit
keeps two consecutive segments with speaker A -- the merge is not applied
after a deletion. -/
theorem c4_counterexample_delete_no_merge :
    ((handleDeleteSegment uABC (handlePartialSpeakerChange [uABC] [] "u1" 1 2 "B" none) 1).find?
        (fun e => e.utteranceId == "u1")).map (fun e => e.segments.map (fun s => s.speaker)) =
      some ["A", "A"] ∧
    ((handleDeleteSegment uABC (handlePartialSpeakerChange [uABC] [] "u1" 1 2 "B" none) 1).find?
        (fun e => e.utteranceId == "u1")).map
      (fun e => decide (List.Chain' (fun a b => a.speaker ≠ b.speaker) e.segments)) =
      some false := by
  constructor
  · simp [handlePartialSpeakerChange, handleDeleteSegment, uABC, splitSegmentsAt,
      mergeAdjacent, defaultSegment, reindexSegments]
  · simp [handlePartialSpeakerChange, handleDeleteSegment, uABC, splitSegmentsAt,
      mergeAdjacent, defaultSegment, reindexSegments]

/-- C4 (amended): no two consecutive segments share a speaker after a
partial reattribution or a per-segment speaker change, and no two
consecutive rendered segments share a speaker after flattening; segment
deletion applies no merge (see the counterexample). -/
theorem c4_no_adjacent_same_speaker :
    (∀ (utts : List Utterance) (prev : List UtteranceEdit) (uid : String)
       (a b : Nat) (sp : String) (lb : Option (List Char)) (u0 : Utterance),
       utts.find? (fun x => x.id == uid) = some u0 →
       ∀ e ∈ handlePartialSpeakerChange utts prev uid a b sp lb,
         e.utteranceId = uid →
         List.Chain' (fun s t => s.speaker ≠ t.speaker) e.segments) ∧
    (∀ (uu : Utterance) (prev : List UtteranceEdit) (i : Nat) (sp : String)
       (lb : Option (List Char)) (e0 : UtteranceEdit),
       prev.find? (fun x => x.utteranceId == uu.id) = some e0 →
       ∀ e ∈ handleSegmentSpeakerChange uu prev i sp lb,
         e.utteranceId = uu.id →
         List.Chain' (fun s t => s.speaker ≠ t.speaker) e.segments) ∧
    (∀ (utterances : List Utterance) (utteranceEdits : List UtteranceEdit),
       List.Chain' (fun s t => s.speaker ≠ t.speaker)
         (processedSegments utterances utteranceEdits)) := by
  refine ⟨?_, ?_, ?_⟩
  · intro utts prev uid a b sp lb u0 hfind e he hid
    simp only [handlePartialSpeakerChange, hfind] at he
    split at he
    · rcases List.mem_append.mp he with hmem | hnew
      · have h2 := (List.mem_filter.mp hmem).2
        simp [hid] at h2
      · have hee := List.mem_singleton.mp hnew
        subst hee
        exact mergeAdjacent_chain _
    · have h2 := (List.mem_filter.mp he).2
      simp [hid] at h2
  · intro uu prev i sp lb e0 hfind e he hid
    simp only [handleSegmentSpeakerChange, hfind] at he
    split at he
    · have h2 := (List.mem_filter.mp he).2
      simp [hid] at h2
    · rcases List.mem_map.mp he with ⟨e1, he1, rfl⟩
      by_cases hb : (e1.utteranceId == uu.id) = true
      · rw [if_pos hb]
        exact mergeAdjacent_chain _
      · rw [if_neg hb] at hid ⊢
        exact absurd (by simp [hid]) hb
  · intro utterances utteranceEdits
    exact mergeRendered_chain _

/-- C4 witness: the amended no-adjacent-same-speaker statement at concrete
inputs. -/
theorem c4_witness :
    (([uAB].find? (fun x => x.id == "u1") = some uAB) ∧
      (∀ e ∈ handlePartialSpeakerChange [uAB] [] "u1" 0 1 "B" none,
        e.utteranceId = "u1" →
        List.Chain' (fun s t => s.speaker ≠ t.speaker) e.segments)) ∧
    List.Chain' (fun s t => s.speaker ≠ t.speaker) (processedSegments [uAB] []) :=
  ⟨⟨by decide, c4_no_adjacent_same_speaker.1 [uAB] [] "u1" 0 1 "B" none uAB (by decide)⟩,
    c4_no_adjacent_same_speaker.2.2 [uAB] []⟩



/-- C5: when an edit operation yields exactly the trivial single-segment
state of the utterance, the edit is removed from the store (for both the
partial reattribution and the per-segment speaker change). -/
theorem c5_noop_collapse :
    (∀ (utts : List Utterance) (prev : List UtteranceEdit) (uid : String)
       (a b : Nat) (sp : String) (lb : Option (List Char)) (u0 : Utterance),
       utts.find? (fun x => x.id == uid) = some u0 →
       mergeAdjacent (splitSegmentsAt a b sp lb
           (match prev.find? (fun e => e.utteranceId == uid) with
            | some e => e.segments
            | none => [defaultSegment u0]) 0) = [defaultSegment u0] →
       (handlePartialSpeakerChange utts prev uid a b sp lb).find?
         (fun e => e.utteranceId == uid) = none) ∧
    (∀ (uu : Utterance) (prev : List UtteranceEdit) (i : Nat) (sp : String)
       (lb : Option (List Char)) (e0 : UtteranceEdit),
       prev.find? (fun x => x.utteranceId == uu.id) = some e0 →
       mergeAdjacent (setSegmentSpeaker e0.segments i sp lb) = [defaultSegment uu] →
       (handleSegmentSpeakerChange uu prev i sp lb).find?
         (fun e => e.utteranceId == uu.id) = none) := by
  constructor
  · intro utts prev uid a b sp lb u0 hfind hm
    simp only [handlePartialSpeakerChange, hfind, hm]
    rw [if_neg (by simp [defaultSegment])]
    exact find?_filter_ne_none prev uid
  · intro uu prev i sp lb e0 hfind hm
    simp only [handleSegmentSpeakerChange, hfind, hm]
    rw [if_pos (by simp [defaultSegment])]
    exact find?_filter_ne_none prev uu.id

/-- C5 witness: reattributing the whole text of `uAB` back to speaker A via
the partial operation leaves no edit stored. -/
theorem c5_witness :
    (([uAB].find? (fun x => x.id == "u1") = some uAB) ∧
      mergeAdjacent (splitSegmentsAt 0 2 "A" none
          (match ([] : List UtteranceEdit).find? (fun e => e.utteranceId == "u1") with
           | some e => e.segments
           | none => [defaultSegment uAB]) 0) = [defaultSegment uAB]) ∧
    (handlePartialSpeakerChange [uAB] [] "u1" 0 2 "A" none).find?
      (fun e => e.utteranceId == "u1") = none :=
  ⟨⟨by decide, by simp [splitSegmentsAt, mergeAdjacent, defaultSegment, uAB]⟩,
    c5_noop_collapse.1 [uAB] [] "u1" 0 2 "A" none uAB (by decide)
      (by simp [splitSegmentsAt, mergeAdjacent, defaultSegment, uAB])⟩

/-- C6: reassigning a whole utterance back to its original speaker leaves
the store with no edit for it. -/
theorem c6_revert_round_trip (utts : List Utterance) (prev : List UtteranceEdit)
    (u0 : Utterance) (lb : Option (List Char))
    (hfind : utts.find? (fun x => x.id == u0.id) = some u0) :
    (handleEntireSegmentSpeakerChange utts prev u0.id u0.speaker lb).find?
      (fun e => e.utteranceId == u0.id) = none := by
  simp only [handleEntireSegmentSpeakerChange, hfind]
  rw [if_pos (by simp)]
  exact find?_filter_ne_none prev u0.id

/-- C6 witness: concrete revert round-trip starting from a store that holds
an edit for the utterance. -/
theorem c6_witness :
    ([uAB].find? (fun x => x.id == "u1") = some uAB) ∧
    (handleEntireSegmentSpeakerChange [uAB] [editB_ab] "u1" "A" none).find?
      (fun e => e.utteranceId == "u1") = none := by
  have h : [uAB].find? (fun x => x.id == "u1") = some uAB := by decide
  exact ⟨h, by
    have := c6_revert_round_trip [uAB] [editB_ab] uAB none h
    simpa [uAB] using this⟩

/-- C2: evaluating the flattening at the deleted-utterance sentinel.  The
deleted utterance still contributes its original rendered segment (the
`edit.segments.length > 0` guard routes the sentinel to the original-
utterance branch), and reverting also yields the original segment. -/
theorem c2_deleted_utterance_still_rendered :
    processedSegments [uAB] (handleDeleteUtterance uAB []) =
      [{ speaker := "A", speakerLabel := none, text := ['a', 'b'],
         startMs := 0, endMs := 1000 }] ∧
    processedSegments [uAB] (handleRevertUtterance uAB (handleDeleteUtterance uAB [])) =
      [{ speaker := "A", speakerLabel := none, text := ['a', 'b'],
         startMs := 0, endMs := 1000 }] := by
  constructor
  · simp [processedSegments, handleDeleteUtterance, utteranceRendered, uAB, mergeRendered]
  · simp [processedSegments, handleDeleteUtterance, handleRevertUtterance,
      utteranceRendered, uAB, mergeRendered]


/-- C3 witness: the delete-segment specification at a concrete store. -/
theorem c3_witness :
    (([editB_ab] : List UtteranceEdit).find? (fun x => x.utteranceId == uAB.id) = some editB_ab) ∧
    (((editB_ab.segments.eraseIdx 0).isEmpty = true →
        (handleDeleteSegment uAB [editB_ab] 0).find? (fun x => x.utteranceId == uAB.id) = none) ∧
      ((editB_ab.segments.eraseIdx 0).isEmpty = false →
        (handleDeleteSegment uAB [editB_ab] 0).find? (fun x => x.utteranceId == uAB.id) =
          some { editB_ab with segments := reindexSegments (editB_ab.segments.eraseIdx 0) 0 } ∧
        offsetsContiguous (reindexSegments (editB_ab.segments.eraseIdx 0) 0) 0 ∧
        (reindexSegments (editB_ab.segments.eraseIdx 0) 0).map (fun s => s.text) =
          (editB_ab.segments.eraseIdx 0).map (fun s => s.text))) :=
  ⟨by decide, c3_delete_segment_spec uAB [editB_ab] 0 editB_ab (by decide)⟩

/-! ### Word-wrap properties (claim C8) -/


theorem splitLoop_sound (c : Nat) :
    ∀ (words : List (List Char)) (cur l : List Char),
      l ∈ splitLoop c words cur → l.length ≤ c ∨ l ∈ words ∨ l = cur := by
  intro words
  induction words with
  | nil =>
    intro cur l hl
    simp only [splitLoop] at hl
    split at hl
    · simp at hl
    · right; right; simpa using hl
  | cons w rest ih =>
    intro cur l hl
    simp only [splitLoop] at hl
    by_cases h1 : (if cur.isEmpty then w else cur ++ ' ' :: w).length ≤ c
    · rw [if_pos h1] at hl
      rcases ih _ l hl with h | h | h
      · exact Or.inl h
      · exact Or.inr (Or.inl (List.mem_cons_of_mem _ h))
      · exact Or.inl (h ▸ h1)
    · rw [if_neg h1] at hl
      by_cases h2 : cur.isEmpty
      · rw [if_pos h2] at hl
        rcases ih _ l hl with h | h | h
        · exact Or.inl h
        · exact Or.inr (Or.inl (List.mem_cons_of_mem _ h))
        · exact Or.inr (Or.inl (h ▸ List.mem_cons_self w rest))
      · rw [if_neg h2] at hl
        rcases List.mem_cons.mp hl with h | h
        · exact Or.inr (Or.inr h)
        · rcases ih _ l h with h | h | h
          · exact Or.inl h
          · exact Or.inr (Or.inl (List.mem_cons_of_mem _ h))
          · exact Or.inr (Or.inl (h ▸ List.mem_cons_self w rest))

theorem splitLoop_mem_self (c : Nat) (rest : List (List Char)) (cur : List Char)
    (h : c < cur.length) : cur ∈ splitLoop c rest cur := by
  have hne : cur.isEmpty = false := by
    cases cur with
    | nil => simp at h
    | cons a t => rfl
  cases rest with
  | nil =>
    simp only [splitLoop, hne]
    simp
  | cons w r =>
    simp only [splitLoop, hne]
    rw [if_neg (by simp; omega)]
    simp

theorem splitLoop_longword (c : Nat) :
    ∀ (words : List (List Char)) (cur w : List Char),
      w ∈ words → c < w.length → w ∈ splitLoop c words cur := by
  intro words
  induction words with
  | nil => intro cur w hw; simp at hw
  | cons w0 rest ih =>
    intro cur w hw hlen
    rcases List.mem_cons.mp hw with rfl | hw
    · simp only [splitLoop]
      rw [if_neg (by split <;> simp <;> omega)]
      by_cases h2 : cur.isEmpty
      · rw [if_pos h2]
        exact splitLoop_mem_self c rest w hlen
      · rw [if_neg h2]
        exact List.mem_cons_of_mem _ (splitLoop_mem_self c rest w hlen)
    · simp only [splitLoop]
      by_cases h1 : (if cur.isEmpty then w0 else cur ++ ' ' :: w0).length ≤ c
      · rw [if_pos h1]; exact ih _ w hw hlen
      · rw [if_neg h1]
        by_cases h2 : cur.isEmpty
        · rw [if_pos h2]; exact ih _ w hw hlen
        · rw [if_neg h2]; exact List.mem_cons_of_mem _ (ih _ w hw hlen)

/-- The 80-character test text `"a ".repeat(40)`. -/
def aRepeat40 : List Char := (List.replicate 40 ['a', ' ']).flatten

/-- C8: a word longer than the line width is never split -- it becomes a
line of its own; every produced line either fits in `charsPerLine` or is
such a single unsplit word; and the concrete policy check: for
charsPerLine=65 the text `"a ".repeat(40)` wraps into at least 2 lines,
none exceeding 65 characters. -/
theorem c8_word_wrap :
    (∀ (text : List Char) (c : Nat) (w : List Char),
       w ∈ text.splitOn ' ' → c < w.length → w ∈ splitTextIntoLines text c) ∧
    (∀ (text : List Char) (c : Nat) (l : List Char),
       l ∈ splitTextIntoLines text c → l.length ≤ c ∨ l ∈ text.splitOn ' ') ∧
    (2 ≤ (splitTextIntoLines aRepeat40 65).length ∧
      ∀ l ∈ splitTextIntoLines aRepeat40 65, l.length ≤ 65) := by
  refine ⟨?_, ?_, by decide, by decide⟩
  · intro text c w hw hlen
    exact splitLoop_longword c _ [] w hw hlen
  · intro text c l hl
    rcases splitLoop_sound c _ [] l hl with h | h | h
    · exact Or.inl h
    · exact Or.inr h
    · subst h; exact Or.inl (by simp)

/-- C8 witness: a 70-character word with charsPerLine=65 is emitted as its
own overflowing line. -/
theorem c8_witness :
    ((List.replicate 70 'x' ∈ (List.replicate 70 'x').splitOn ' ') ∧ 65 < (List.replicate 70 'x').length) ∧
    List.replicate 70 'x' ∈ splitTextIntoLines (List.replicate 70 'x') 65 :=
  ⟨⟨by decide, by decide⟩, c8_word_wrap.1 (List.replicate 70 'x') 65 (List.replicate 70 'x') (by decide) (by decide)⟩


/-! ### Global line numbering and pagination (claim C7) -/


theorem range'_append_one (s m n : Nat) :
    List.range' s m ++ List.range' (s + m) n = List.range' s (m + n) := by
  have h := List.range'_append s m n 1
  rw [Nat.one_mul] at h
  rw [h, Nat.add_comm n m]

theorem docLinesOfSegment_lineNumbers
    (f : String → Option (List Char) → List Char) (seg : RenderedSegment) (n : Nat) :
    (docLinesOfSegment f seg n).map (fun l => l.lineNumber) =
      List.range' n (docLinesOfSegment f seg n).length := by
  unfold docLinesOfSegment
  rw [List.map_map, List.length_map]
  have h1 : ((fun l : DocumentLine => l.lineNumber) ∘
      (fun p : Nat × List Char =>
        mkDocumentLine seg (formatTimestamp seg.startMs) n p.1 p.2)) =
      (fun p : Nat × List Char => n + p.1) := rfl
  rw [h1]
  have h2 : (fun p : Nat × List Char => n + p.1) = (fun k => n + k) ∘ Prod.fst := rfl
  rw [h2, ← List.map_map, List.enum_map_fst, ← List.range'_eq_map_range,
    List.enum_length]

theorem processSegmentsGo_lineNumbers (f : String → Option (List Char) → List Char) :
    ∀ (segs : List RenderedSegment) (n : Nat),
      (processSegmentsGo f segs n).map (fun l => l.lineNumber) =
        List.range' n (processSegmentsGo f segs n).length := by
  intro segs
  induction segs with
  | nil => intro n; rfl
  | cons seg rest ih =>
    intro n
    simp only [processSegmentsGo]
    rw [List.map_append, List.length_append, docLinesOfSegment_lineNumbers, ih,
      range'_append_one]



theorem getLast?_range' : ∀ (n s : Nat), 0 < n →
    (List.range' s n).getLast? = some (s + n - 1) := by
  intro n
  induction n with
  | zero => intro s h; omega
  | succ m ih =>
    intro s _
    cases m with
    | zero => simp [List.range']
    | succ k =>
      have hstep : List.range' s (k + 2) = s :: List.range' (s + 1) (k + 1) := rfl
      rw [hstep, List.getLast?_cons, ih (s + 1) (by omega)]
      simp
      omega

theorem paginateGo_flatten (lpp : Nat) :
    ∀ (rest cur : List DocumentLine) (pn : Nat),
      ((paginateGo lpp rest cur pn).map (fun p => p.lines)).flatten = cur ++ rest := by
  intro rest
  induction rest with
  | nil =>
    intro cur pn
    simp only [paginateGo]
    split
    · simp_all [List.isEmpty_iff]
    · simp
  | cons l rest ih =>
    intro cur pn
    simp only [paginateGo]
    split
    · simp [ih]
    · rw [ih]
      simp

theorem paginateGo_pageNumbers (lpp : Nat) :
    ∀ (rest cur : List DocumentLine) (pn : Nat),
      (paginateGo lpp rest cur pn).map (fun p => p.pageNumber) =
        List.range' pn (paginateGo lpp rest cur pn).length := by
  intro rest
  induction rest with
  | nil =>
    intro cur pn
    simp only [paginateGo]
    split
    · rfl
    · rfl
  | cons l rest ih =>
    intro cur pn
    simp only [paginateGo]
    split
    · rw [List.map_cons, ih, List.length_cons]
      rfl
    · exact ih _ _

theorem paginateGo_sizes (lpp : Nat) :
    ∀ (rest cur : List DocumentLine) (pn : Nat), cur.length < lpp →
      ∀ p ∈ paginateGo lpp rest cur pn, p.lines.length ≤ lpp ∧ p.lines ≠ [] := by
  intro rest
  induction rest with
  | nil =>
    intro cur pn hcur p hp
    simp only [paginateGo] at hp
    split at hp
    · simp at hp
    · next hne =>
      have hpe : p = { pageNumber := pn, lines := cur } := by simpa using hp
      subst hpe
      refine ⟨?_, ?_⟩
      · show cur.length ≤ lpp
        omega
      · show cur ≠ []
        intro hc
        subst hc
        simp at hne
  | cons l rest ih =>
    intro cur pn hcur p hp
    simp only [paginateGo] at hp
    split at hp
    · next hfull =>
      rcases List.mem_cons.mp hp with rfl | hp2
      · constructor
        · show (cur ++ [l]).length ≤ lpp
          simp only [List.length_append, List.length_singleton]
          omega
        · show cur ++ [l] ≠ []
          simp
      · exact ih [] (pn + 1) (by simp; omega) p hp2
    · next hnotfull =>
      refine ih _ pn ?_ p hp
      simp only [List.length_append, List.length_singleton] at hnotfull ⊢
      omega



theorem paginateGo_full (lpp : Nat) :
    ∀ (rest cur : List DocumentLine) (pn : Nat), cur.length < lpp →
      ∀ (i : Nat) (p : DocumentPage),
        (paginateGo lpp rest cur pn)[i]? = some p →
        i + 1 < (paginateGo lpp rest cur pn).length →
        p.lines.length = lpp := by
  intro rest
  induction rest with
  | nil =>
    intro cur pn hcur i p hp hlen
    simp only [paginateGo] at hp hlen
    split at hlen <;> simp at hlen
  | cons l rest ih =>
    intro cur pn hcur i p hp hlen
    simp only [paginateGo] at hp hlen
    split at hp
    · next hfull =>
      rw [if_pos hfull] at hlen  -- align hlen with same branch
      cases i with
      | zero =>
        have hpe : { pageNumber := pn, lines := cur ++ [l] } = p := by simpa using hp
        subst hpe
        show (cur ++ [l]).length = lpp
        simp only [List.length_append, List.length_singleton] at hfull ⊢
        omega
      | succ j =>
        simp only [List.getElem?_cons_succ] at hp
        simp only [List.length_cons] at hlen
        exact ih [] (pn + 1) (by simp; omega) j p hp (by omega)
    · next hfull =>
      rw [if_neg hfull] at hlen
      refine ih _ pn ?_ i p hp hlen
      simp only [List.length_append, List.length_singleton] at hfull ⊢
      omega

/-- The conclusion of claim C7 for a given segment list, label resolver and
page size: line numbers are the global sequence 1..N, pages partition the
lines in order, page numbers are the sequence 1..P, every page holds
between 1 and `linesPerPage` lines, every non-final page holds exactly
`linesPerPage`, and the last line number equals the total line count over
all pages. -/
def C7Statement (segs : List RenderedSegment)
    (f : String → Option (List Char) → List Char) (lpp : Nat) : Prop :=
  ((processSegmentsIntoLines segs f).map (fun l => l.lineNumber) =
     List.range' 1 (processSegmentsIntoLines segs f).length) ∧
  (((paginateLines (processSegmentsIntoLines segs f) lpp).map (fun p => p.lines)).flatten =
     processSegmentsIntoLines segs f) ∧
  ((paginateLines (processSegmentsIntoLines segs f) lpp).map (fun p => p.pageNumber) =
     List.range' 1 (paginateLines (processSegmentsIntoLines segs f) lpp).length) ∧
  (∀ p ∈ paginateLines (processSegmentsIntoLines segs f) lpp,
     p.lines.length ≤ lpp ∧ p.lines ≠ []) ∧
  (∀ (i : Nat) (p : DocumentPage),
     (paginateLines (processSegmentsIntoLines segs f) lpp)[i]? = some p →
     i + 1 < (paginateLines (processSegmentsIntoLines segs f) lpp).length →
     p.lines.length = lpp) ∧
  (processSegmentsIntoLines segs f ≠ [] →
     (processSegmentsIntoLines segs f).getLast?.map (fun l => l.lineNumber) =
       some (((paginateLines (processSegmentsIntoLines segs f) lpp).map
         (fun p => p.lines.length)).sum))

/-- C7: global 1-based line numbering never resets, pagination fills pages
to `linesPerPage` keeping the final partial page, page numbers are 1-based
and sequential, and the last line number equals the total number of lines
across all pages. -/
theorem c7_line_numbers_and_pagination (segs : List RenderedSegment)
    (f : String → Option (List Char) → List Char) (lpp : Nat) (hlpp : 1 ≤ lpp) :
    C7Statement segs f lpp := by
  have hnum : (processSegmentsIntoLines segs f).map (fun l => l.lineNumber) =
      List.range' 1 (processSegmentsIntoLines segs f).length :=
    processSegmentsGo_lineNumbers f segs 1
  refine ⟨hnum, paginateGo_flatten lpp _ [] 1, paginateGo_pageNumbers lpp _ [] 1,
    paginateGo_sizes lpp _ [] 1 (by simp; omega),
    paginateGo_full lpp _ [] 1 (by simp; omega), ?_⟩
  intro hne
  have hsum : ((paginateLines (processSegmentsIntoLines segs f) lpp).map
      (fun p => p.lines.length)).sum = (processSegmentsIntoLines segs f).length := by
    have hfl := paginateGo_flatten lpp (processSegmentsIntoLines segs f) [] 1
    have := congrArg List.length hfl
    rw [List.length_flatten] at this
    simp only [List.nil_append] at this
    rw [← this]
    rw [List.map_map]
    rfl
  rw [hsum, ← List.getLast?_map, hnum]
  have hlen : 0 < (processSegmentsIntoLines segs f).length := List.length_pos.mpr hne
  rw [getLast?_range' _ 1 hlen]
  congr 1
  omega

/-- A sample rendered segment. -/
def segObjection : RenderedSegment :=
  { speaker := "A", speakerLabel := none,
    text := "Objection your honor".data, startMs := 1000, endMs := 3000 }

/-- The sample label resolver: display label when set, else the speaker id. -/
def labelOfSpeaker : String → Option (List Char) → List Char :=
  fun sp lb => lb.getD sp.data

/-- C7 witness: the statement at a concrete one-segment transcript and the
default page size. -/
theorem c7_witness :
    1 ≤ LINES_PER_PAGE ∧ C7Statement [segObjection] labelOfSpeaker LINES_PER_PAGE :=
  ⟨by decide, c7_line_numbers_and_pagination [segObjection] labelOfSpeaker LINES_PER_PAGE (by decide)⟩


/-! ### First-line prefix, widths and the empty first line (claims C9, C10) -/


/-- Running length of `join(' ')` as tracked by the greedy first-line loop
(`firstLineLength` plus separators). -/
def joinLenFrom : Nat → List (List Char) → Nat
  | acc, [] => acc
  | acc, w :: ws => joinLenFrom (acc + (if acc > 0 then 1 else 0) + w.length) ws

theorem takeFirstWords_len (limit : Nat) :
    ∀ (words : List (List Char)) (acc : Nat), acc ≤ limit →
      joinLenFrom acc (takeFirstWords limit words acc).1 ≤ limit := by
  intro words
  induction words with
  | nil => intro acc h; exact h
  | cons w rest ih =>
    intro acc h
    simp only [takeFirstWords]
    by_cases h1 : acc + (if acc > 0 then 1 else 0) + w.length ≤ limit
    · rw [if_pos h1]
      simp only [joinLenFrom]
      exact ih _ h1
    · rw [if_neg h1]
      exact h

theorem takeFirstWords_fst_subset (limit : Nat) :
    ∀ (words : List (List Char)) (acc : Nat) (w : List Char),
      w ∈ (takeFirstWords limit words acc).1 → w ∈ words := by
  intro words
  induction words with
  | nil => intro acc w hw; simp [takeFirstWords] at hw
  | cons w0 rest ih =>
    intro acc w hw
    simp only [takeFirstWords] at hw
    by_cases h1 : acc + (if acc > 0 then 1 else 0) + w0.length ≤ limit
    · rw [if_pos h1] at hw
      rcases List.mem_cons.mp hw with rfl | hw2
      · exact List.mem_cons_self _ _
      · exact List.mem_cons_of_mem _ (ih _ w hw2)
    · rw [if_neg h1] at hw
      simp at hw

theorem joinLenFrom_pos :
    ∀ (f : List (List Char)) (acc : Nat), (∀ w ∈ f, w ≠ []) → 0 < acc →
      joinLenFrom acc f = acc + (if f = [] then 0 else 1 + (joinWords f).length) := by
  intro f
  induction f with
  | nil => intro acc _ _; simp [joinLenFrom]
  | cons w ws ih =>
    intro acc hne hacc
    simp only [joinLenFrom]
    rw [if_pos hacc]
    cases ws with
    | nil =>
      simp only [joinLenFrom, joinWords]
      simp
      omega
    | cons w2 ws2 =>
      rw [ih (acc + 1 + w.length) (fun x hx => hne x (List.mem_cons_of_mem _ hx)) (by omega)]
      have hjw : joinWords (w :: w2 :: ws2) = w ++ ' ' :: joinWords (w2 :: ws2) := rfl
      rw [hjw]
      simp only [List.length_append, List.length_cons]
      have : ¬(w2 :: ws2 = []) := by simp
      rw [if_neg this]
      simp
      omega

theorem joinLenFrom_zero :
    ∀ (f : List (List Char)), (∀ w ∈ f, w ≠ []) →
      joinLenFrom 0 f = (joinWords f).length := by
  intro f hne
  cases f with
  | nil => rfl
  | cons w ws =>
    simp only [joinLenFrom]
    rw [if_neg (by omega)]
    have hw : w ≠ [] := hne w (List.mem_cons_self _ _)
    cases ws with
    | nil => simp [joinWords, joinLenFrom]
    | cons w2 ws2 =>
      rw [joinLenFrom_pos _ _ (fun x hx => hne x (List.mem_cons_of_mem _ hx))
        (by simp; exact List.length_pos.mpr hw)]
      have hjw : joinWords (w :: w2 :: ws2) = w ++ ' ' :: joinWords (w2 :: ws2) := rfl
      rw [hjw, if_neg (by simp)]
      simp only [List.length_append, List.length_cons]
      omega

/-- The greedy first line never exceeds its width limit (for texts without
leading, trailing or doubled spaces, whose words are all non-empty). -/
theorem firstLine_len_le (limit : Nat) (words : List (List Char))
    (hw : ∀ w ∈ words, w ≠ []) :
    (joinWords (takeFirstWords limit words 0).1).length ≤ limit := by
  have h1 := takeFirstWords_len limit words 0 (Nat.zero_le _)
  rw [joinLenFrom_zero _ (fun w hmem => hw w (takeFirstWords_fst_subset limit words 0 w hmem))] at h1
  exact h1



theorem splitOn_pieces_no_sep (c : Char) :
    ∀ (xs : List Char) (p : List Char), p ∈ xs.splitOn c → c ∉ p := by
  intro xs
  induction xs with
  | nil =>
    intro p hp
    simp only [List.splitOn_nil] at hp
    simp only [List.mem_singleton] at hp
    subst hp
    simp
  | cons a xs ih =>
    intro p hp
    simp only [List.splitOn, List.splitOnP_cons] at hp
    by_cases ha : (a == c) = true
    · rw [if_pos ha] at hp
      rcases List.mem_cons.mp hp with rfl | hp2
      · simp
      · exact ih p hp2
    · rw [if_neg ha] at hp
      cases hsp : xs.splitOnP (· == c) with
      | nil => exact absurd hsp (List.splitOnP_ne_nil _ xs)
      | cons h t =>
        rw [hsp] at hp
        simp only [List.modifyHead] at hp
        rcases List.mem_cons.mp hp with rfl | hp2
        · intro hmem
          rcases List.mem_cons.mp hmem with rfl | hmem2
          · simp at ha
          · exact ih h (by rw [List.splitOn, hsp]; exact List.mem_cons_self _ _) hmem2
        · exact ih p (by rw [List.splitOn, hsp]; exact List.mem_cons_of_mem _ hp2)

theorem splitOn_joinWords :
    ∀ (ws : List (List Char)), ws ≠ [] → (∀ w ∈ ws, ' ' ∉ w) →
      (joinWords ws).splitOn ' ' = ws := by
  intro ws
  induction ws with
  | nil => intro h; exact absurd rfl h
  | cons w rest ih =>
    intro _ hno
    cases rest with
    | nil =>
      show w.splitOn ' ' = [w]
      rw [List.splitOn]
      exact List.splitOnP_eq_single _ _ (by
        intro x hx hbeq
        exact hno w (List.mem_cons_self _ _) (by rwa [eq_of_beq hbeq] at hx))
    | cons w2 rest2 =>
      have hjw : joinWords (w :: w2 :: rest2) = w ++ ' ' :: joinWords (w2 :: rest2) := rfl
      rw [hjw, List.splitOn, List.splitOnP_first _ _
        (by
          intro x hx hbeq
          exact hno w (List.mem_cons_self _ _) (by rwa [eq_of_beq hbeq] at hx))
        ' ' (by simp)]
      rw [← List.splitOn, ih (by simp) (fun x hx => hno x (List.mem_cons_of_mem _ hx))]

theorem splitLoop_head_pre (c : Nat) :
    ∀ (rest : List (List Char)) (cur : List Char), cur ≠ [] →
      ∃ l ls, splitLoop c rest cur = l :: ls ∧ l.take cur.length = cur := by
  intro rest
  induction rest with
  | nil =>
    intro cur hcur
    refine ⟨cur, [], ?_, List.take_length cur⟩
    simp only [splitLoop]
    rw [if_neg (by simpa using hcur)]
  | cons w r ih =>
    intro cur hcur
    have hie : cur.isEmpty = false := by simpa using hcur
    simp only [splitLoop, hie, Bool.false_eq_true, if_false]
    by_cases h1 : (cur ++ ' ' :: w).length ≤ c
    · rw [if_pos h1]
      obtain ⟨l, ls, heq, hpre⟩ := ih (cur ++ ' ' :: w) (by simp)
      refine ⟨l, ls, heq, ?_⟩
      have h2 : cur.length ≤ (cur ++ ' ' :: w).length := by simp
      calc l.take cur.length = (l.take (cur ++ ' ' :: w).length).take cur.length := by
              rw [List.take_take, min_eq_left h2]
        _ = (cur ++ ' ' :: w).take cur.length := by rw [hpre]
        _ = cur := List.take_left cur (' ' :: w)
    · rw [if_neg h1]
      exact ⟨cur, _, rfl, List.take_length cur⟩



/-- Modelled from the spec wording: `formatTimestamp` renders `H:MM:SS` when
hours > 0 and `M:SS` otherwise, truncating sub-second precision, with
hours = ms / 3600000, minutes = (ms / 60000) mod 60, seconds =
(ms / 1000) mod 60 and M = ms / 60000. -/
def formatTimestampSpec (ms : Nat) : List Char :=
  if ms / 3600000 > 0 then
    (Nat.repr (ms / 3600000)).data ++ ':' :: (pad2 (ms / 60000 % 60) ++ ':' :: pad2 (ms / 1000 % 60))
  else
    (Nat.repr (ms / 60000)).data ++ ':' :: pad2 (ms / 1000 % 60)

theorem formatTimestamp_eq_spec (ms : Nat) :
    formatTimestamp ms = formatTimestampSpec ms := by
  unfold formatTimestamp formatTimestampSpec
  have h36 : ms / 1000 / 3600 = ms / 3600000 := by
    rw [Nat.div_div_eq_div_mul]
  have hsec : ms / 1000 % 60 = ms / 1000 % 60 := rfl
  by_cases h : ms / 1000 / 3600 > 0
  · rw [if_pos h, if_pos (by omega)]
    have hmin : ms / 1000 % 3600 / 60 = ms / 60000 % 60 := by
      have h60 : ms / 1000 / 60 = ms / 60000 := by rw [Nat.div_div_eq_div_mul]
      omega
    rw [h36, hmin]
  · rw [if_neg h, if_neg (by omega)]
    have hmin : ms / 1000 % 3600 / 60 = ms / 60000 := by
      have h60 : ms / 1000 / 60 = ms / 60000 := by rw [Nat.div_div_eq_div_mul]
      omega
    rw [hmin]

/-- Modelled from the spec wording: the first-line prefix is
`"[" + timestamp + "] " + label.toUpperCase() + ": "`. -/
def pfxSpec (display : List Char) (ms : Nat) : List Char :=
  "[".data ++ formatTimestampSpec ms ++ "] ".data ++ toUpperChars display ++ ": ".data

theorem pfxChars_eq_spec (display : List Char) (ms : Nat) :
    pfxChars display ms = pfxSpec display ms := by
  unfold pfxChars pfxSpec
  rw [formatTimestamp_eq_spec]
  simp




theorem docLinesOfSegment_getElem? (f : String → Option (List Char) → List Char)
    (seg : RenderedSegment) (n i : Nat) :
    (docLinesOfSegment f seg n)[i]? =
      ((segmentTextLines f seg)[i]?).map
        (fun t => mkDocumentLine seg (formatTimestamp seg.startMs) n i t) := by
  unfold docLinesOfSegment
  rw [List.getElem?_map, List.getElem?_enum]
  cases h : (segmentTextLines f seg)[i]? <;> rfl

theorem splitLoop_nil_cons (c : Nat) (w : List Char) (ws : List (List Char)) :
    splitLoop c (w :: ws) [] = splitLoop c ws w := by
  have h0 : splitLoop c (w :: ws) [] =
      if w.length ≤ c then splitLoop c ws w else splitLoop c ws w := rfl
  rw [h0]
  split <;> rfl



/-- The first-line width limit `Math.max(CHARS_PER_LINE - prefix.length, 30)`
of a rendered segment. -/
def firstLineLimit (f : String → Option (List Char) → List Char)
    (seg : RenderedSegment) : Nat :=
  max (CHARS_PER_LINE - (pfxChars (f seg.speaker seg.speakerLabel) seg.startMs).length) 30

/-- The words of a rendered segment and their greedy first-line split. -/
def segFirstRest (f : String → Option (List Char) → List Char)
    (seg : RenderedSegment) : List (List Char) × List (List Char) :=
  takeFirstWords (firstLineLimit f seg) (seg.text.splitOn ' ') 0

theorem segmentTextLines_eq (f : String → Option (List Char) → List Char)
    (seg : RenderedSegment) :
    segmentTextLines f seg =
      joinWords (segFirstRest f seg).1 ::
        (if (joinWords (segFirstRest f seg).2).isEmpty then []
         else splitTextIntoLines (joinWords (segFirstRest f seg).2) CHARS_PER_LINE) := rfl

/-- The conclusion of claim C9 for a label resolver, a rendered segment and
a starting line number: the timestamp and prefix render as the spec words
say, the first document line carries the speaker fields and the timestamp
and its text fits in `max(charsPerLine - prefix.length, 30)` characters,
and every later line is a continuation wrapped at the full
`CHARS_PER_LINE` width (or is a single unsplit word). -/
def C9Statement (f : String → Option (List Char) → List Char)
    (seg : RenderedSegment) (n : Nat) : Prop :=
  (∀ ms, formatTimestamp ms = formatTimestampSpec ms) ∧
  (∀ (d : List Char) (ms : Nat), pfxChars d ms = pfxSpec d ms) ∧
  (∃ l, (docLinesOfSegment f seg n)[0]? = some l ∧
    l.speaker = some seg.speaker ∧ l.speakerLabel = some seg.speakerLabel ∧
    l.timestamp = some (formatTimestamp seg.startMs) ∧ l.isContinuation = false ∧
    l.lineNumber = n ∧
    l.text.length ≤
      max (CHARS_PER_LINE - (pfxChars (f seg.speaker seg.speakerLabel) seg.startMs).length) 30) ∧
  (∀ (i : Nat) (l : DocumentLine), (docLinesOfSegment f seg n)[i + 1]? = some l →
    l.isContinuation = true ∧ (l.text.length ≤ CHARS_PER_LINE ∨ ' ' ∉ l.text))

/-- C9: the first-line prefix is the bracketed timestamp followed by the
upper-cased display label and a colon (with `formatTimestamp` rendering
`H:MM:SS` when hours are positive, else `M:SS`); the first output line is
packed against `max(charsPerLine - prefix.length, 30)` (for texts whose
words are non-empty) and later lines use the full width. -/
theorem c9_prefix_timestamp_and_widths
    (f : String → Option (List Char) → List Char) (seg : RenderedSegment) (n : Nat)
    (hw : ∀ w ∈ seg.text.splitOn ' ', w ≠ []) :
    C9Statement f seg n := by
  refine ⟨formatTimestamp_eq_spec, pfxChars_eq_spec, ?_, ?_⟩
  · rw [docLinesOfSegment_getElem?, segmentTextLines_eq]
    simp only [List.getElem?_cons_zero, Option.map_some']
    refine ⟨_, rfl, rfl, rfl, rfl, rfl, rfl, ?_⟩
    show (joinWords (segFirstRest f seg).1).length ≤ _
    exact firstLine_len_le _ _ hw
  · intro i l hl
    rw [docLinesOfSegment_getElem?, segmentTextLines_eq] at hl
    simp only [List.getElem?_cons_succ] at hl
    cases hre : (if (joinWords (segFirstRest f seg).2).isEmpty then ([] : List (List Char))
        else splitTextIntoLines (joinWords (segFirstRest f seg).2) CHARS_PER_LINE)[i]? with
    | none => rw [hre] at hl; simp at hl
    | some t =>
      rw [hre] at hl
      simp only [Option.map_some'] at hl
      have hle := Option.some.inj hl
      subst hle
      constructor
      · rfl
      · have hmem : t ∈ splitTextIntoLines (joinWords (segFirstRest f seg).2) CHARS_PER_LINE := by
          by_cases hemp : (joinWords (segFirstRest f seg).2).isEmpty
          · rw [if_pos hemp] at hre
            exact Option.noConfusion hre
          · rw [if_neg hemp] at hre
            exact List.getElem?_mem hre
        rcases splitLoop_sound CHARS_PER_LINE _ [] t hmem with h | h | h
        · exact Or.inl h
        · exact Or.inr (splitOn_pieces_no_sep ' ' _ t h)
        · subst h
          exact Or.inl (Nat.zero_le _)



/-- C9 witness: the statement at a concrete rendered segment. -/
theorem c9_witness :
    (∀ w ∈ segObjection.text.splitOn ' ', w ≠ []) ∧
    C9Statement labelOfSpeaker segObjection 1 :=
  ⟨by decide, c9_prefix_timestamp_and_widths labelOfSpeaker segObjection 1 (by decide)⟩



theorem joinWords_cons_ne_nil (w : List Char) (ws : List (List Char)) (hw : w ≠ []) :
    joinWords (w :: ws) ≠ [] := by
  cases ws with
  | nil => simpa [joinWords] using hw
  | cons w2 ws2 =>
    have h : joinWords (w :: w2 :: ws2) = w ++ ' ' :: joinWords (w2 :: ws2) := rfl
    rw [h]
    simp

/-- C10: when the first word of a segment is longer than the first-line
width limit, the first emitted document line has empty text while still
carrying the speaker, speaker label and timestamp (not a continuation),
and the oversized word starts a later continuation line. -/
theorem c10_long_first_word
    (f : String → Option (List Char) → List Char) (seg : RenderedSegment) (n : Nat)
    (w : List Char) (ws : List (List Char))
    (hsplit : seg.text.splitOn ' ' = w :: ws)
    (hlen : firstLineLimit f seg < w.length) :
    ((docLinesOfSegment f seg n)[0]?).map
        (fun l => (l.text, l.speaker, l.speakerLabel, l.timestamp, l.isContinuation)) =
      some ([], some seg.speaker, some seg.speakerLabel,
        some (formatTimestamp seg.startMs), false) ∧
    (∃ l, (docLinesOfSegment f seg n)[1]? = some l ∧ l.isContinuation = true ∧
      l.text.take w.length = w ∧ l.text ≠ []) := by
  have h30 : 30 ≤ firstLineLimit f seg := Nat.le_max_right _ _
  have hw0 : w ≠ [] := by
    intro h
    rw [h] at hlen
    simp at hlen
  have hfr : segFirstRest f seg = ([], w :: ws) := by
    unfold segFirstRest
    rw [hsplit]
    simp only [takeFirstWords]
    rw [if_neg (by simp; omega)]
  have hnosp : ∀ x ∈ w :: ws, ' ' ∉ x := by
    intro x hx
    exact splitOn_pieces_no_sep ' ' seg.text x (hsplit ▸ hx)
  have hremsplit : (joinWords (w :: ws)).splitOn ' ' = w :: ws :=
    splitOn_joinWords (w :: ws) (by simp) hnosp
  have hrem_ne : (joinWords (w :: ws)).isEmpty = false := by
    simpa using joinWords_cons_ne_nil w ws hw0
  obtain ⟨l, ls, heq, hpre⟩ := splitLoop_head_pre CHARS_PER_LINE ws w hw0
  have hlines : splitTextIntoLines (joinWords (w :: ws)) CHARS_PER_LINE = l :: ls := by
    unfold splitTextIntoLines
    rw [hremsplit, splitLoop_nil_cons, heq]
  constructor
  · rw [docLinesOfSegment_getElem?, segmentTextLines_eq, hfr]
    simp only [List.getElem?_cons_zero, Option.map_some']
    rfl
  · rw [docLinesOfSegment_getElem?, segmentTextLines_eq, hfr]
    simp only [List.getElem?_cons_succ]
    rw [show (joinWords (([], w :: ws) : List (List Char) × List (List Char)).2) =
        joinWords (w :: ws) from rfl]
    rw [if_neg (by simp [hrem_ne])]
    rw [hlines]
    simp only [List.getElem?_cons_zero, Option.map_some']
    refine ⟨mkDocumentLine seg (formatTimestamp seg.startMs) n 1 l, rfl, rfl, ?_, ?_⟩
    · exact hpre
    · show l ≠ []
      intro hnil
      have ht : l.take w.length = [] := by
        rw [hnil, List.take_nil]
      rw [ht] at hpre
      exact hw0 hpre.symm



/-- A rendered segment whose only word is 60 characters long. -/
def segLongWord : RenderedSegment :=
  { speaker := "A", speakerLabel := none, text := List.replicate 60 'x',
    startMs := 1000, endMs := 2000 }

/-- C10 witness: the empty first line at a concrete oversized first word. -/
theorem c10_witness :
    (segLongWord.text.splitOn ' ' = List.replicate 60 'x' :: [] ∧
      firstLineLimit labelOfSpeaker segLongWord < (List.replicate 60 'x').length) ∧
    (((docLinesOfSegment labelOfSpeaker segLongWord 1)[0]?).map
        (fun l => (l.text, l.speaker, l.speakerLabel, l.timestamp, l.isContinuation)) =
      some ([], some segLongWord.speaker, some segLongWord.speakerLabel,
        some (formatTimestamp segLongWord.startMs), false) ∧
     (∃ l, (docLinesOfSegment labelOfSpeaker segLongWord 1)[1]? = some l ∧
       l.isContinuation = true ∧
       l.text.take (List.replicate 60 'x').length = List.replicate 60 'x' ∧ l.text ≠ [])) :=
  ⟨⟨by decide, by decide⟩,
    c10_long_first_word labelOfSpeaker segLongWord 1 (List.replicate 60 'x') []
      (by decide) (by decide)⟩


/-- C1 (amended): every edit-store state reachable through the
speaker-reattribution operations keeps coverage. -/
theorem c1_coverage_of_reattribution_reach (utts : List Utterance)
    (st : List UtteranceEdit) (hids : (utts.map (fun u => u.id)).Nodup)
    (hr : ReattributionReach utts st) : Coverage utts st := by
  induction hr with
  | base => intro e he; simp at he
  | splitStep st uid a b sp lb _ ih =>
    exact coverage_handlePartialSpeakerChange utts st uid a b sp lb hids ih
  | segStep st u i sp lb hu _ ih =>
    exact coverage_handleSegmentSpeakerChange utts u st i sp lb ih
  | entireStep st uid sp lb _ ih =>
    exact coverage_handleEntireSegmentSpeakerChange utts st uid sp lb hids ih
  | revertStep st u hu _ ih =>
    exact coverage_handleRevertUtterance utts u st ih

/-- C1 counterexample: deleting a segment (one of the operations the claim
quantifies over) leaves a stored edit whose concatenated text is `"b"`,
not the original `"ab"`. -/
theorem c1_counterexample_delete_breaks_coverage :
    ((handleDeleteSegment uAB (handlePartialSpeakerChange [uAB] [] "u1" 0 1 "B" none) 0).find?
        (fun e => e.utteranceId == "u1")).map (fun e => concatTexts e.segments) = some ['b'] ∧
    some ['b'] ≠ some uAB.text := by
  constructor
  · simp [handlePartialSpeakerChange, handleDeleteSegment, uAB, splitSegmentsAt,
      mergeAdjacent, defaultSegment, reindexSegments, concatTexts]
  · decide

/-- C1 witness: after one concrete partial reattribution the reached state
is covered. -/
theorem c1_coverage_witness :
    (([uAB].map (fun u => u.id)).Nodup ∧
      ReattributionReach [uAB] (handlePartialSpeakerChange [uAB] [] "u1" 0 1 "B" none)) ∧
    Coverage [uAB] (handlePartialSpeakerChange [uAB] [] "u1" 0 1 "B" none) :=
  ⟨⟨by decide, .splitStep [] "u1" 0 1 "B" none .base⟩,
    c1_coverage_of_reattribution_reach [uAB] _ (by decide)
      (.splitStep [] "u1" 0 1 "B" none .base)⟩

end CRT
